import Mathlib

set_option maxHeartbeats 1000000

namespace SherpaTts

/-!
Verification development for the react-native-sherpa-onnx-offline-tts
streaming TTS pipeline.  The definitions below are shallow embeddings of
the Kotlin module `TTSManagerModule.kt`, the Android `AudioPlayer`, and the
iOS `SherpaOnnxOfflineTts.swift` module.  Text is modelled as `List Char`,
float samples as `ℚ`, machine integers as `Nat`/`Int` with explicit
wrapping where it matters.
-/

/-! ## Text segmenter (TTSManagerModule.splitText, iOS splitText)

The Kotlin source first computes
`words = text.split("\\s+".toRegex()).filter { it.isNotEmpty() }`.
`splitRuns` models Kotlin/Swift regex split on runs of whitespace:
maximal whitespace runs separate tokens, a leading run produces one empty
leading token and a trailing run produces one empty trailing token. -/

abbrev Word := List Char

def isWsChar (c : Char) : Bool := c.isWhitespace

/-- Core tokenizer.  `mode = some cur` means we are inside a token whose
characters so far are `cur` (reversed); `mode = none` means we have just
consumed part of a whitespace run and are skipping the rest of it. -/
def srGo (mode : Option (List Char)) : List Char → List (List Char)
  | [] =>
    match mode with
    | some cur => [cur.reverse]
    | none => [[]]
  | c :: rest =>
    match mode with
    | some cur =>
      if isWsChar c then cur.reverse :: srGo none rest
      else srGo (some (c :: cur)) rest
    | none =>
      if isWsChar c then srGo none rest else srGo (some [c]) rest

/-- Split a character list at maximal whitespace runs (the behaviour of
Kotlin `CharSequence.split(Regex("\\s+"))`). -/
def splitRuns (l : List Char) : List (List Char) := srGo (some []) l

/-- `text.split("\\s+".toRegex()).filter { it.isNotEmpty() }` from
`splitText` (Kotlin line 260, Swift line 311). -/
def wordsOf (text : List Char) : List Word :=
  (splitRuns text).filter (fun w => !w.isEmpty)

/-- `words.subList(...).joinToString(" ")`: join words with single spaces. -/
def joinWords : List Word → List Char
  | [] => []
  | [w] => w
  | w :: ws => w ++ ' ' :: joinWords ws

/-- `chunk.lastIndexOf(c)`: index of the last occurrence, `none` when the
character does not occur (the Kotlin source uses `-1`). -/
def lastIdxOf (c : Char) : List Char → Option Nat
  | [] => none
  | a :: rest =>
    match lastIdxOf c rest with
    | some i => some (i + 1)
    | none => if a = c then some 0 else none

/-- Kotlin `String.trim()`: remove whitespace from both ends. -/
def trimChars (l : List Char) : List Char :=
  ((l.dropWhile isWsChar).reverse.dropWhile isWsChar).reverse

/-- `sentence.split("\\s+".toRegex()).size` (the cursor advance in
`splitText`; note the Kotlin code does not filter empty strings here). -/
def countTokens (l : List Char) : Nat := (splitRuns l).length

/-- The `while (currentIndex < totalWords)` loop of `splitText`
(Kotlin lines 264-287, Swift lines 315-337), operating on the suffix of
the word list that starts at the cursor.  The loop consumes at least one
word per iteration whenever `maxWords ≥ 1`, so `fuel` equal to the number
of words is always sufficient (proved below); the fuel parameter only
makes the embedding structurally recursive. -/
def splitLoop (maxWords : Nat) : Nat → List Word → List (List Char)
  | 0, _ => []
  | _, [] => []
  | fuel + 1, rest =>
    let window := rest.take maxWords
    let chunk := joinWords window
    match lastIdxOf '.' chunk with
    | some p =>
      let sentence := trimChars (chunk.take (p + 1))
      sentence :: splitLoop maxWords fuel (rest.drop (countTokens sentence))
    | none =>
      match lastIdxOf ',' chunk with
      | some p =>
        let sentence := trimChars (chunk.take (p + 1))
        sentence :: splitLoop maxWords fuel (rest.drop (countTokens sentence))
      | none =>
        trimChars chunk :: splitLoop maxWords fuel (rest.drop maxWords)

/-- `splitText(text, maxWords)` (Kotlin lines 258-290, Swift 309-340). -/
def splitText (text : List Char) (maxWords : Nat) : List (List Char) :=
  splitLoop maxWords (wordsOf text).length (wordsOf text)

/-- Index of the last word (if any) whose final character is `sep`.
Specification-side view of `chunk.lastIndexOf(sep)` used to reason about
`splitText`; under the side condition that separators occur only at word
ends, the last occurrence of `sep` in the joined chunk is the final
character of this word. -/
def lastWordEnding (sep : Char) : List Word → Option Nat
  | [] => none
  | w :: ws =>
    match lastWordEnding sep ws with
    | some j => some (j + 1)
    | none => if w.getLast? = some sep then some 0 else none

/-- Removes every sentence/clause separator from a word.  Used to state the
C2 counterexample generously: even ignoring all inserted or original `.`
and `,` characters, segmentation loses word material. -/
def stripSeps (w : Word) : Word :=
  w.filter (fun c => !(c = '.' || c = ','))

/-- Word sequence recovered from a chunk list (concatenation of each
chunk's whitespace-split words). -/
def chunkWords (chunks : List (List Char)) : List Word :=
  (chunks.map wordsOf).flatten

/-! ## PCM16 conversion (writeWavPCM16, Kotlin lines 341-348 / Swift 421-426)

Float samples are idealized as rationals; the concrete values used in the
theorems below are exactly representable in 32-bit floats, where the
Kotlin/Swift arithmetic is exact. -/

/-- `f.coerceIn(-1f, 1f)` (Kotlin) / `max(-1.0, min(1.0, f))` (Swift). -/
def clampQ (x : ℚ) : ℚ := max (-1) (min 1 x)

/-- Kotlin `Float.toInt()`: conversion truncates toward zero. -/
def truncQ (x : ℚ) : ℤ := if 0 ≤ x then ⌊x⌋ else ⌈x⌉

/-- Swift `.rounded()`: round to nearest, ties away from zero. -/
def roundAwayQ (x : ℚ) : ℤ := if 0 ≤ x then ⌊x + 1 / 2⌋ else ⌈x - 1 / 2⌉

/-- Android sample conversion: `(f.coerceIn(-1f,1f) * 32767f).toInt().toShort()`
(the `toShort` never wraps because the value is within `±32767`). -/
def pcm16Android (x : ℚ) : ℤ := truncQ (clampQ x * 32767)

/-- The iOS sample conversion: `Int16((clamped * 32767.0).rounded())`. -/
def pcm16IOS (x : ℚ) : ℤ := roundAwayQ (clampQ x * 32767)

/-! ## WAV serialization (writeWavPCM16, Kotlin lines 337-378 / Swift 418-454) -/

/-- Little-endian bytes of a 32-bit value (Kotlin `wI32`). -/
def u32le (v : Nat) : List Nat :=
  [v % 256, v / 256 % 256, v / 65536 % 256, v / 16777216 % 256]

/-- Little-endian bytes of a 16-bit value (Kotlin `wI16`). -/
def u16le (v : Nat) : List Nat := [v % 256, v / 256 % 256]

/-- Little-endian two-byte encoding of a signed 16-bit value
(two's complement, as produced by `(s and 0xFF)`, `(s shr 8 and 0xFF)`). -/
def int16le (v : ℤ) : List Nat := u16le (v % 65536).toNat

/-- The 44-byte canonical RIFF/WAVE/fmt/data header written by
`writeWavPCM16` for the given sample rate, channel count and PCM data
size (in bytes). -/
def wavHeader (rate channels dataSize : Nat) : List Nat :=
  [0x52, 0x49, 0x46, 0x46] ++ (u32le (36 + dataSize) ++
  ([0x57, 0x41, 0x56, 0x45] ++
  ([0x66, 0x6D, 0x74, 0x20] ++ (u32le 16 ++ (u16le 1 ++
  (u16le channels ++ (u32le rate ++ (u32le (rate * channels * 2) ++
  (u16le (channels * 2) ++ (u16le 16 ++
  ([0x64, 0x61, 0x74, 0x61] ++ u32le dataSize)))))))))))

/-- PCM payload: each float sample clamped/scaled/truncated to PCM16 and
encoded little-endian (Android conversion). -/
def wavPayload (samples : List ℚ) : List Nat :=
  samples.flatMap (fun q => int16le (pcm16Android q))

/-- The full byte stream produced by the Android `writeWavPCM16` for
`floatSamples`, `sampleRate`, `channels`. -/
def wavBytes (samples : List ℚ) (rate channels : Nat) : List Nat :=
  wavHeader rate channels (2 * samples.length) ++ wavPayload samples

/-- Parsed header fields of a WAV byte stream. -/
structure WavInfo where
  fmtTag : Nat
  channels : Nat
  sampleRate : Nat
  byteRate : Nat
  blockAlign : Nat
  bits : Nat
  dataSize : Nat
deriving DecidableEq

/-- Reads a little-endian 16-bit value at byte offset `off`. -/
def readU16 (bs : List Nat) (off : Nat) : Nat :=
  bs.getD off 0 + 256 * bs.getD (off + 1) 0

/-- Reads a little-endian 32-bit value at byte offset `off`. -/
def readU32 (bs : List Nat) (off : Nat) : Nat :=
  bs.getD off 0 + 256 * bs.getD (off + 1) 0 + 65536 * bs.getD (off + 2) 0 +
    16777216 * bs.getD (off + 3) 0

/-- Parses the canonical 44-byte WAV header back (the round-trip reader of
the testable property: checks the RIFF/WAVE/fmt/data magics and reads the
format fields at their canonical offsets). -/
def parseWavHeader (bs : List Nat) : Option WavInfo :=
  if 44 ≤ bs.length ∧ bs.take 4 = [0x52, 0x49, 0x46, 0x46] ∧
      ((bs.drop 8).take 4 = [0x57, 0x41, 0x56, 0x45] ∧
        (bs.drop 12).take 4 = [0x66, 0x6D, 0x74, 0x20] ∧
        (bs.drop 36).take 4 = [0x64, 0x61, 0x74, 0x61]) then
    some ⟨readU16 bs 20, readU16 bs 22, readU32 bs 24, readU32 bs 28,
      readU16 bs 32, readU16 bs 34, readU32 bs 40⟩
  else none

/-! ## Streaming playback engine (`AudioPlayer`, src/unnamed/part_002)

The engine is concurrent: the caller thread (enqueue/endEnqueue/stop), the
draining thread, the telemetry timer and posted main-thread callbacks
interleave.  It is modelled as a small-step machine: each `PAct` is one
atomic step of one of those contexts, and the draining-thread loop body is
split at its shared-state accesses exactly as in the source
(`take`, accumulate+analyze, `pendingWrites += 1`, device write,
`pendingWrites -= 1`, `maybeSendCompletion`).  Delegate calls
(`didUpdateVolume`) append to an observable event trace; device writes are
also recorded in that trace so that orderings between telemetry and writes
can be stated.  `mainHandler.post { ... -1 ... }` is modelled by queueing
an `emitFinished` task delivered by a separate `mainRun` step. -/

inductive PEvent
  | vol (q : ℚ)
  | zero
  | finished
  | write (chunk : List ℚ)
deriving DecidableEq

inductive MainTask
  | emitFinished
deriving DecidableEq

/-- Program counter of the draining thread inside one loop iteration. -/
inductive ThreadPC
  | idle
  | took (c : List ℚ)
  | accumulated (c : List ℚ)
  | writing (c : List ℚ)
  | written
  | postWrite
deriving DecidableEq

structure PlayerState where
  sampleRate : Nat
  channels : Nat
  running : Bool
  deviceOpen : Bool
  queue : List (List ℚ)
  sentCompletion : Bool
  enqueueClosed : Bool
  didSignalFinish : Bool
  playbackId : Int
  pendingWrites : Nat
  accBuffer : List ℚ
  volumes : List ℚ
  mainQueue : List MainTask
  events : List PEvent
  pc : ThreadPC
deriving DecidableEq

/-- `samplesPerChunk = ((sampleRate * channels * 200) / 1000)`. -/
def samplesPerChunk (s : PlayerState) : Nat :=
  s.sampleRate * s.channels * 200 / 1000

/-- `computePeak`: maximum absolute sample value. -/
def computePeak (l : List ℚ) : ℚ := l.foldl (fun m x => max m |x|) 0

/-- `processAccumulatedSamples`: while at least one window of samples is
buffered, slice it off and push `peak * 0.42` (the `scalingFactor`) as a
pending loudness value.  Returns (new volumes, remaining buffer).  The
fuel makes the while-loop structurally recursive; `buf.length` is always
enough fuel, and the `0 < spc` guard encodes the source precondition that
the window size is positive (it is `4410` at 22050 Hz mono). -/
def processAcc (spc : Nat) : Nat → List ℚ → List ℚ × List ℚ
  | 0, buf => ([], buf)
  | fuel + 1, buf =>
    if spc ≤ buf.length ∧ 0 < spc then
      let out := processAcc spc fuel (buf.drop spc)
      (computePeak (buf.take spc) * (21 / 50) :: out.1, out.2)
    else ([], buf)

/-- `maybeSendCompletion` (lines 150-170): on the first time the
completion condition `enqueueClosed ∧ queue empty ∧ no write in flight`
is observed, set both completion flags, clear the analysis buffers and
post the `-1` sentinel to the main thread. -/
def maybeSendCompletion (s : PlayerState) : PlayerState :=
  if s.didSignalFinish then s
  else if s.enqueueClosed ∧ s.queue = [] ∧ s.pendingWrites = 0 then
    { s with didSignalFinish := true, sentCompletion := true,
             accBuffer := [], volumes := [],
             mainQueue := s.mainQueue ++ [.emitFinished] }
  else s

/-- `enqueueAudioData(samples, sr)` (lines 132-138): a sample-rate
mismatch throws `IllegalArgumentException` before any state is written;
otherwise the three per-request flags are reset and the chunk is
appended to the FIFO. -/
def enqueueAudioData (s : PlayerState) (samples : List ℚ) (sr : Nat) :
    Except String PlayerState :=
  if sr ≠ s.sampleRate then .error "Sample rate mismatch"
  else .ok { s with sentCompletion := false, didSignalFinish := false,
                    enqueueClosed := false, queue := s.queue ++ [samples] }

/-- One atomic step of one of the engine's execution contexts. -/
inductive PAct
  | enqueue (samples : List ℚ) (sr : Nat)
  | endEnq
  | beginPB (id : Int)
  | stop
  | thTake
  | thAccum
  | thIncPW
  | thWrite
  | thDecPW
  | thCheck
  | timerTick
  | mainRun
deriving DecidableEq

/-- Small-step transition function of the `AudioPlayer`.  Steps whose
guard is not enabled (wrong thread pc, empty queue, and so on) leave the
state unchanged.  `stop` models `stopPlayer` with the draining thread
parked at `take()` (the interrupt/join then leaves no iteration in
flight). -/
def step (s : PlayerState) : PAct → PlayerState
  | .enqueue samples sr =>
    match enqueueAudioData s samples sr with
    | .ok s2 => s2
    | .error _ => s
  | .endEnq =>
    maybeSendCompletion { s with enqueueClosed := true, accBuffer := [] }
  | .beginPB id =>
    let s1 := { s with playbackId := id, enqueueClosed := false,
                       didSignalFinish := false, sentCompletion := false,
                       pendingWrites := 0, queue := [], accBuffer := [],
                       volumes := [] }
    if s1.running then s1
    else { s1 with running := true, deviceOpen := true, pc := .idle }
  | .stop =>
    if s.running then
      { s with running := false, pc := .idle, deviceOpen := false,
               accBuffer := [], volumes := [], enqueueClosed := true,
               didSignalFinish := true, sentCompletion := true,
               mainQueue := s.mainQueue ++ [.emitFinished] }
    else { s with mainQueue := s.mainQueue ++ [.emitFinished] }
  | .thTake =>
    match s.pc, s.queue with
    | .idle, c :: rest =>
      if s.running then { s with queue := rest, pc := .took c } else s
    | _, _ => s
  | .thAccum =>
    match s.pc with
    | .took c =>
      let buf := s.accBuffer ++ c
      let out := processAcc (samplesPerChunk s) buf.length buf
      { s with accBuffer := out.2, volumes := s.volumes ++ out.1,
               pc := .accumulated c }
    | _ => s
  | .thIncPW =>
    match s.pc with
    | .accumulated c =>
      { s with pendingWrites := s.pendingWrites + 1, pc := .writing c }
    | _ => s
  | .thWrite =>
    match s.pc with
    | .writing c => { s with events := s.events ++ [.write c], pc := .written }
    | _ => s
  | .thDecPW =>
    match s.pc with
    | .written =>
      { s with pendingWrites := s.pendingWrites - 1, pc := .postWrite }
    | _ => s
  | .thCheck =>
    match s.pc with
    | .postWrite => { maybeSendCompletion s with pc := .idle }
    | _ => s
  | .timerTick =>
    if s.running then
      match s.volumes with
      | v :: rest => { s with volumes := rest, events := s.events ++ [.vol v] }
      | [] =>
        if s.sentCompletion then s
        else { s with events := s.events ++ [.zero] }
    else s
  | .mainRun =>
    match s.mainQueue with
    | .emitFinished :: rest =>
      { s with mainQueue := rest, events := s.events ++ [.finished] }
    | [] => s

/-- A freshly constructed `AudioPlayer(sampleRate, channels, delegate)`
(note `enqueueClosed` starts `true` in the source). -/
def initPlayer (rate channels : Nat) : PlayerState :=
  { sampleRate := rate, channels := channels, running := false,
    deviceOpen := false, queue := [], sentCompletion := false,
    enqueueClosed := true, didSignalFinish := false, playbackId := 0,
    pendingWrites := 0, accBuffer := [], volumes := [], mainQueue := [],
    events := [], pc := .idle }

/-- Run a schedule of atomic steps. -/
def runSched (s : PlayerState) (acts : List PAct) : PlayerState :=
  acts.foldl step s

/-! ## Session coordinators (generateAndPlay)

Android (`TTSManagerModule.generateAndPlay`, lines 148-185) keeps a single
`pendingPromise` slot; iOS (`generateAndPlay`, Swift lines 218-250) keeps
a dictionary `pendingPromises[playbackId]`.  Promises are identified by
opaque numeric tokens; every settlement (resolve or reject) is appended to
a log. -/

inductive Settle
  | interrupted
  | finishedOk
  | rejEmpty
  | rejNotInit
  | rejGeneration
deriving DecidableEq

/-- Android module state relevant to request validation and completion
bookkeeping. -/
structure AndroidState where
  seq : Nat
  activeId : Nat
  pending : Option Nat
  ttsReady : Bool
  settled : List (Nat × Settle)
  begun : List Nat
deriving DecidableEq

/-- The validation/installation part of the Android `generateAndPlay`
(lines 148-170): empty-text check, init check, settle any previous pending
promise as "Interrupted", install the new promise, assign the next
playback id and call `beginPlayback`. -/
def generateAndPlayA (text : List Char) (p : Nat) (s : AndroidState) :
    AndroidState :=
  if trimChars text = [] then
    { s with settled := s.settled ++ [(p, .rejEmpty)] }
  else if !s.ttsReady then
    { s with settled := s.settled ++ [(p, .rejNotInit)] }
  else
    let s1 : AndroidState :=
      match s.pending with
      | some q => { s with settled := s.settled ++ [(q, .interrupted)] }
      | none => s
    { s1 with pending := some p, seq := s1.seq + 1, activeId := s1.seq + 1,
              begun := s1.begun ++ [s1.seq + 1] }

/-- iOS module state: `pendingPromises` is a map from playback id to the
stored continuation token. -/
structure IosState where
  seq : Nat
  activeId : Nat
  pending : List (Nat × Nat)
  ttsReady : Bool
  settled : List (Nat × Settle)
deriving DecidableEq

/-- The validation/installation part of the iOS `generateAndPlay` (Swift
lines 218-241): same validation, but the new continuation is inserted
into `pendingPromises` keyed by the new playback id, without settling any
previously stored continuation. -/
def generateAndPlayI (text : List Char) (p : Nat) (s : IosState) : IosState :=
  if trimChars text = [] then
    { s with settled := s.settled ++ [(p, .rejEmpty)] }
  else if !s.ttsReady then
    { s with settled := s.settled ++ [(p, .rejNotInit)] }
  else
    { s with seq := s.seq + 1, activeId := s.seq + 1,
             pending := s.pending ++ [(s.seq + 1, p)] }

/-! ## Synthesis dispatch loop (Android `generateAndPlay` try-block and
`generateAudio`, lines 172-184 and 292-304)

For each sentence, `generateAudio` calls the external engine.  A thrown
exception propagates to the `catch` (rejecting with `GENERATION_ERROR`,
with `endEnqueue` never reached); a `null` result is only logged and the
loop continues; a successful result is enqueued, where a sample-rate
mismatch in `enqueueAudioData` throws and is likewise caught.  The outcome
of each external call is abstracted as a `SynthOutcome`. -/

inductive SynthOutcome
  | ok (samples : List ℚ) (sr : Nat)
  | nullResult
  | throwsExc
deriving DecidableEq

/-- Runs the dispatch loop against a player configured at `rate`.
Returns (chunks handed to the sink in order, whether `endEnqueue` was
reached, whether `GENERATION_ERROR` was surfaced). -/
def runSynthLoop (rate : Nat) : List SynthOutcome → List (List ℚ) × Bool × Bool
  | [] => ([], true, false)
  | .throwsExc :: _ => ([], false, true)
  | .nullResult :: rest => runSynthLoop rate rest
  | .ok samples sr :: rest =>
    if sr = rate then
      let out := runSynthLoop rate rest
      (samples :: out.1, out.2.1, out.2.2)
    else ([], false, true)

/-- The chunks successfully delivered among a list of outcomes (those
whose sample rate matches). -/
def okChunks : List SynthOutcome → List (List ℚ)
  | [] => []
  | .ok samples _ :: rest => samples :: okChunks rest
  | _ :: rest => okChunks rest

/-- Whether an outcome makes the dispatch loop abort with
`GENERATION_ERROR`: a thrown exception, or a successful result whose
sample rate mismatches the player (then `enqueueAudioData` throws). -/
def abortsLoop (rate : Nat) : SynthOutcome → Bool
  | .throwsExc => true
  | .ok _ sr => sr != rate
  | .nullResult => false

/-! ## generateAndSave synthesis calls (Kotlin lines 226-240, Swift 275-285)

`generateAndSave` drives the same segmentation but always invokes the
engine as `engine.generate(processed, 0, 1.0f)`; its public signature has
no speaker or speed parameter at all. -/

structure SynthCall where
  text : List Char
  sid : Int
  speed : ℚ
deriving DecidableEq

/-- `if (s.endsWith(".")) s else "$s."`. -/
def ensureDot (s : List Char) : List Char :=
  if s.getLast? = some '.' then s else s ++ ['.']

/-- The sequence of synthesis-engine invocations performed by
`generateAndSave(text, path, fileType)`. -/
def generateAndSaveCalls (text : List Char) : List SynthCall :=
  (splitText (trimChars text) 15).map (fun s => SynthCall.mk (ensureDot s) 0 1)

example : splitText "a.b c".data 2 = ["a.".data, "c".data] := by decide

example :
    splitText "hello world. nice day".data 3
      = ["hello world.".data, "nice day".data] := by decide

/-! ## Lemmas about the tokenizer -/

theorem isWsChar_space : isWsChar ' ' = true := by decide

theorem srGo_all_nonws (l : List Char) (cur : List Char)
    (h : ∀ c ∈ l, isWsChar c = false) :
    srGo (some cur) l = [cur.reverse ++ l] := by
  induction l generalizing cur with
  | nil => simp [srGo]
  | cons c rest ih =>
    have hc : isWsChar c = false := h c (by simp)
    rw [srGo]
    simp only [hc, Bool.false_eq_true, if_false]
    rw [ih (c :: cur) (fun d hd => h d (by simp [hd]))]
    simp

theorem srGo_append_space (w t : List Char) (cur : List Char)
    (h : ∀ c ∈ w, isWsChar c = false) :
    srGo (some cur) (w ++ ' ' :: t) = (cur.reverse ++ w) :: srGo none t := by
  induction w generalizing cur with
  | nil => simp [srGo, isWsChar_space]
  | cons c rest ih =>
    have hc : isWsChar c = false := h c (by simp)
    rw [List.cons_append, srGo]
    simp only [hc, Bool.false_eq_true, if_false]
    rw [ih (c :: cur) (fun d hd => h d (by simp [hd]))]
    simp

theorem srGo_none_cons (c : Char) (t : List Char) (h : isWsChar c = false) :
    srGo none (c :: t) = srGo (some []) (c :: t) := by
  rw [srGo, srGo]
  simp [h]

theorem srGo_tokens_nonws :
    ∀ (l : List Char) (mode : Option (List Char)),
      (∀ cur, mode = some cur → ∀ c ∈ cur, isWsChar c = false) →
      ∀ w ∈ srGo mode l, ∀ c ∈ w, isWsChar c = false := by
  intro l
  induction l with
  | nil =>
    intro mode hmode w hw c hc
    cases mode with
    | some cur =>
      simp only [srGo, List.mem_singleton] at hw
      subst hw
      exact hmode cur rfl c (List.mem_reverse.1 hc)
    | none =>
      simp only [srGo, List.mem_singleton] at hw
      subst hw
      cases hc
  | cons a t ih =>
    intro mode hmode w hw c hc
    cases mode with
    | some cur =>
      cases ha : isWsChar a with
      | true =>
        rw [srGo] at hw
        simp only [ha, if_true] at hw
        rcases List.mem_cons.1 hw with h1 | h1
        · subst h1
          exact hmode cur rfl c (List.mem_reverse.1 hc)
        · exact ih none (fun cur2 hc2 => by cases hc2) w h1 c hc
      | false =>
        rw [srGo] at hw
        simp only [ha, Bool.false_eq_true, if_false] at hw
        refine ih (some (a :: cur)) ?_ w hw c hc
        intro cur2 hc2 d hd
        cases hc2
        rcases List.mem_cons.1 hd with h1 | h1
        · subst h1; exact ha
        · exact hmode cur rfl d h1
    | none =>
      cases ha : isWsChar a with
      | true =>
        rw [srGo] at hw
        simp only [ha, if_true] at hw
        exact ih none (fun cur2 hc2 => by cases hc2) w hw c hc
      | false =>
        rw [srGo] at hw
        simp only [ha, Bool.false_eq_true, if_false] at hw
        refine ih (some [a]) ?_ w hw c hc
        intro cur2 hc2 d hd
        cases hc2
        rcases List.mem_cons.1 hd with h1 | h1
        · subst h1; exact ha
        · cases h1

/-! ## Lemmas about joinWords -/

theorem joinWords_cons (w : Word) (ws : List Word) (h : ws ≠ []) :
    joinWords (w :: ws) = w ++ ' ' :: joinWords ws := by
  cases ws with
  | nil => exact absurd rfl h
  | cons x xs => rfl

theorem joinWords_ne_nil (ws : List Word) (h : ws ≠ [])
    (hw : ∀ w ∈ ws, w ≠ []) : joinWords ws ≠ [] := by
  cases ws with
  | nil => exact absurd rfl h
  | cons w xs =>
    cases xs with
    | nil => exact hw w (by simp)
    | cons y ys =>
      rw [joinWords_cons _ _ (by simp)]
      simp

theorem joinWords_head (c : Char) (w : List Char) (ws : List Word) :
    ∃ t, joinWords ((c :: w) :: ws) = c :: t := by
  cases ws with
  | nil => exact ⟨w, rfl⟩
  | cons x xs => exact ⟨w ++ ' ' :: joinWords (x :: xs), rfl⟩

theorem splitRuns_joinWords (ws : List Word) (h : ws ≠ [])
    (hne : ∀ w ∈ ws, w ≠ [])
    (hnw : ∀ w ∈ ws, ∀ c ∈ w, isWsChar c = false) :
    splitRuns (joinWords ws) = ws := by
  induction ws with
  | nil => exact absurd rfl h
  | cons w xs ih =>
    cases xs with
    | nil =>
      show srGo (some []) (joinWords [w]) = [w]
      have hj : joinWords [w] = w := rfl
      rw [hj, srGo_all_nonws _ _ (hnw w (by simp))]
      simp
    | cons x xs2 =>
      rw [joinWords_cons _ _ (by simp)]
      show srGo (some []) (w ++ ' ' :: joinWords (x :: xs2)) = w :: x :: xs2
      rw [srGo_append_space _ _ _ (hnw w (by simp))]
      have hx : x ≠ [] := hne x (by simp)
      obtain ⟨c, w2, hcw⟩ : ∃ c w2, x = c :: w2 := by
        cases x with
        | nil => exact absurd rfl hx
        | cons c w2 => exact ⟨c, w2, rfl⟩
      subst hcw
      have hc : isWsChar c = false := hnw (c :: w2) (by simp) c (by simp)
      obtain ⟨t, ht⟩ := joinWords_head c w2 xs2
      rw [ht, srGo_none_cons c t hc, ← ht]
      have hih := ih (by simp)
        (fun u hu => hne u (List.mem_cons_of_mem w hu))
        (fun u hu => hnw u (List.mem_cons_of_mem w hu))
      rw [splitRuns] at hih
      rw [hih]
      simp

theorem countTokens_joinWords (ws : List Word) (h : ws ≠ [])
    (hne : ∀ w ∈ ws, w ≠ [])
    (hnw : ∀ w ∈ ws, ∀ c ∈ w, isWsChar c = false) :
    countTokens (joinWords ws) = ws.length := by
  rw [countTokens, splitRuns_joinWords ws h hne hnw]

theorem wordsOf_joinWords (ws : List Word) (h : ws ≠ [])
    (hne : ∀ w ∈ ws, w ≠ [])
    (hnw : ∀ w ∈ ws, ∀ c ∈ w, isWsChar c = false) :
    wordsOf (joinWords ws) = ws := by
  rw [wordsOf, splitRuns_joinWords ws h hne hnw]
  refine List.filter_eq_self.2 ?_
  intro w hw
  simpa using hne w hw

/-! ## Lemmas about trimChars -/

theorem dropWhile_cons_neg {p : Char → Bool} {c : Char} {t : List Char}
    (h : p c = false) : (c :: t).dropWhile p = c :: t := by
  rw [List.dropWhile_cons]
  simp [h]

theorem joinWords_reverse_head (ws : List Word) (h : ws ≠ [])
    (hne : ∀ w ∈ ws, w ≠ [])
    (hnw : ∀ w ∈ ws, ∀ c ∈ w, isWsChar c = false) :
    ∃ d t2, (joinWords ws).reverse = d :: t2 ∧ isWsChar d = false := by
  induction ws with
  | nil => exact absurd rfl h
  | cons w xs ih =>
    cases xs with
    | nil =>
      have hw : w ≠ [] := hne w (by simp)
      obtain ⟨d, t2, hrev⟩ : ∃ d t2, w.reverse = d :: t2 := by
        cases hr : w.reverse with
        | nil => exact absurd (List.reverse_eq_nil_iff.1 hr) hw
        | cons d t2 => exact ⟨d, t2, rfl⟩
      have hd : d ∈ w := List.mem_reverse.1 (by rw [hrev]; simp)
      exact ⟨d, t2, hrev, hnw w (by simp) d hd⟩
    | cons x xs2 =>
      obtain ⟨d, t2, hrev, hd⟩ := ih (by simp)
        (fun u hu => hne u (List.mem_cons_of_mem w hu))
        (fun u hu => hnw u (List.mem_cons_of_mem w hu))
      refine ⟨d, t2 ++ ' ' :: w.reverse, ?_, hd⟩
      rw [joinWords_cons _ _ (by simp), List.reverse_append, List.reverse_cons,
        hrev]
      simp

theorem trimChars_joinWords (ws : List Word) (h : ws ≠ [])
    (hne : ∀ w ∈ ws, w ≠ [])
    (hnw : ∀ w ∈ ws, ∀ c ∈ w, isWsChar c = false) :
    trimChars (joinWords ws) = joinWords ws := by
  obtain ⟨w, xs, rfl⟩ : ∃ w xs, ws = w :: xs := by
    cases ws with
    | nil => exact absurd rfl h
    | cons w xs => exact ⟨w, xs, rfl⟩
  obtain ⟨c, w2, rfl⟩ : ∃ c w2, w = c :: w2 := by
    have hw : w ≠ [] := hne w (by simp)
    cases w with
    | nil => exact absurd rfl hw
    | cons c w2 => exact ⟨c, w2, rfl⟩
  have hc : isWsChar c = false := hnw (c :: w2) (by simp) c (by simp)
  obtain ⟨t, ht⟩ := joinWords_head c w2 xs
  obtain ⟨d, t2, hrev, hd⟩ := joinWords_reverse_head _ h hne hnw
  rw [trimChars, ht, dropWhile_cons_neg hc, ← ht, hrev, dropWhile_cons_neg hd,
    ← hrev, List.reverse_reverse]

/-! ## Lemmas about lastIdxOf -/

theorem lastIdxOf_append_some {c : Char} {l2 : List Char} {i : Nat}
    (l1 : List Char) (h : lastIdxOf c l2 = some i) :
    lastIdxOf c (l1 ++ l2) = some (l1.length + i) := by
  induction l1 with
  | nil => simpa using h
  | cons a t ih =>
    rw [List.cons_append, lastIdxOf, ih]
    simp
    omega

theorem lastIdxOf_append_none {c : Char} {l2 : List Char}
    (l1 : List Char) (h : lastIdxOf c l2 = none) :
    lastIdxOf c (l1 ++ l2) = lastIdxOf c l1 := by
  induction l1 with
  | nil => simpa using h
  | cons a t ih =>
    rw [List.cons_append, lastIdxOf, ih, lastIdxOf]

theorem lastIdxOf_eq_none_of_not_mem {c : Char} {l : List Char}
    (h : c ∉ l) : lastIdxOf c l = none := by
  induction l with
  | nil => rfl
  | cons a t ih =>
    have h1 : c ∉ t := fun hc => h (List.mem_cons_of_mem a hc)
    have h2 : ¬(a = c) := fun he => h (by rw [he]; simp)
    rw [lastIdxOf, ih h1]
    simp [h2]

theorem lastIdxOf_snoc (u : List Char) (c : Char) :
    lastIdxOf c (u ++ [c]) = some u.length := by
  have h1 : lastIdxOf c [c] = some 0 := by
    rw [lastIdxOf]
    simp [lastIdxOf]
  have := lastIdxOf_append_some u h1
  simpa using this

theorem lastIdxOf_word (sep : Char) (w : Word) (hne : w ≠ [])
    (hd : sep ∉ w.dropLast) :
    lastIdxOf sep w =
      if w.getLast? = some sep then some (w.length - 1) else none := by
  induction w using List.reverseRecOn with
  | nil => exact absurd rfl hne
  | append_singleton u a _ =>
    rw [List.dropLast_concat] at hd
    rw [List.getLast?_concat]
    by_cases ha : a = sep
    · subst ha
      rw [lastIdxOf_snoc]
      simp
    · have hnm : sep ∉ u ++ [a] := by
        intro hmem
        rcases List.mem_append.1 hmem with h1 | h1
        · exact hd h1
        · exact ha (List.mem_singleton.1 h1).symm
      rw [lastIdxOf_eq_none_of_not_mem hnm]
      have hns : ¬(some a = some sep) := fun he => ha (Option.some.inj he)
      rw [if_neg hns]

/-! ## Lemmas about lastWordEnding -/

theorem lastWordEnding_lt {sep : Char} {ws : List Word} {j : Nat}
    (h : lastWordEnding sep ws = some j) : j < ws.length := by
  induction ws generalizing j with
  | nil => cases h
  | cons w xs ih =>
    rw [lastWordEnding] at h
    cases h2 : lastWordEnding sep xs with
    | some j2 =>
      rw [h2] at h
      simp at h
      subst h
      have := ih h2
      simp
      omega
    | none =>
      rw [h2] at h
      by_cases hl : w.getLast? = some sep
      · rw [if_pos hl] at h
        simp at h
        subst h
        simp
      · rw [if_neg hl] at h
        cases h

/-! ## Last separator in a joined window

Under the side condition that the separator occurs in each word only as
its final character, the last occurrence of the separator inside the
joined window `joinWords ws` is the final character of the last word that
ends with it, and taking the prefix up to and including it yields exactly
the joined word prefix. -/

theorem lastIdx_join_none (sep : Char) (hsep : sep ≠ ' ') :
    ∀ ws : List Word, ws ≠ [] →
      (∀ w ∈ ws, w ≠ []) →
      (∀ w ∈ ws, sep ∉ w.dropLast) →
      lastWordEnding sep ws = none →
      lastIdxOf sep (joinWords ws) = none := by
  intro ws
  induction ws with
  | nil => intro h; exact absurd rfl h
  | cons w xs ih =>
    intro _ hne hdl hlw
    rw [lastWordEnding] at hlw
    cases h2 : lastWordEnding sep xs with
    | some j2 => rw [h2] at hlw; cases hlw
    | none =>
      rw [h2] at hlw
      have hwlast : ¬(w.getLast? = some sep) := by
        intro hl
        rw [if_pos hl] at hlw
        cases hlw
      have hw : lastIdxOf sep w = none := by
        rw [lastIdxOf_word sep w (hne w (by simp)) (hdl w (by simp)),
          if_neg hwlast]
      cases xs with
      | nil => exact hw
      | cons x xs2 =>
        have hj2 : lastIdxOf sep (joinWords (x :: xs2)) = none :=
          ih (by simp)
            (fun u hu => hne u (List.mem_cons_of_mem w hu))
            (fun u hu => hdl u (List.mem_cons_of_mem w hu)) h2
        have hsp : lastIdxOf sep (' ' :: joinWords (x :: xs2)) = none := by
          rw [lastIdxOf, hj2]
          have : ¬(' ' = sep) := fun he => hsep he.symm
          simp [this]
        rw [joinWords_cons _ _ (by simp), lastIdxOf_append_none w hsp, hw]

theorem lastIdx_join_some (sep : Char) (hsep : sep ≠ ' ') :
    ∀ ws : List Word, ws ≠ [] →
      (∀ w ∈ ws, w ≠ []) →
      (∀ w ∈ ws, ∀ c ∈ w, isWsChar c = false) →
      (∀ w ∈ ws, sep ∉ w.dropLast) →
      ∀ j, lastWordEnding sep ws = some j →
        ∃ p, lastIdxOf sep (joinWords ws) = some p ∧
          p + 1 = (joinWords (ws.take (j + 1))).length ∧
          (joinWords ws).take (p + 1) = joinWords (ws.take (j + 1)) := by
  intro ws
  induction ws with
  | nil => intro h; exact absurd rfl h
  | cons w xs ih =>
    intro _ hne hnw hdl j hlw
    rw [lastWordEnding] at hlw
    cases h2 : lastWordEnding sep xs with
    | some j2 =>
      rw [h2] at hlw
      have hj : j = j2 + 1 := by
        have := Option.some.inj hlw
        omega
      subst hj
      obtain ⟨x, xs2, rfl⟩ : ∃ x xs2, xs = x :: xs2 := by
        cases xs with
        | nil => cases h2
        | cons x xs2 => exact ⟨x, xs2, rfl⟩
      obtain ⟨p2, hp2, hlen2, htake2⟩ := ih (by simp)
        (fun u hu => hne u (List.mem_cons_of_mem w hu))
        (fun u hu => hnw u (List.mem_cons_of_mem w hu))
        (fun u hu => hdl u (List.mem_cons_of_mem w hu)) j2 h2
      have hsp : lastIdxOf sep (' ' :: joinWords (x :: xs2)) = some (p2 + 1) := by
        rw [lastIdxOf, hp2]
      refine ⟨w.length + (p2 + 1), ?_, ?_, ?_⟩
      · rw [joinWords_cons _ _ (by simp)]
        exact lastIdxOf_append_some w hsp
      · have htne : (x :: xs2).take (j2 + 1) ≠ [] := by
          rw [List.take_succ_cons]
          simp
        rw [List.take_succ_cons, joinWords_cons _ _ htne, List.length_append,
          List.length_cons]
        omega
      · have htne : (x :: xs2).take (j2 + 1) ≠ [] := by
          rw [List.take_succ_cons]
          simp
        rw [joinWords_cons _ _ (by simp),
          List.take_succ_cons, joinWords_cons _ _ htne]
        have harr : w.length + (p2 + 1) + 1 = w.length + (p2 + 2) := by omega
        rw [harr, List.take_append]
        have : (' ' :: joinWords (x :: xs2)).take (p2 + 2)
            = ' ' :: (joinWords (x :: xs2)).take (p2 + 1) := by
          rw [List.take_succ_cons]
        rw [this, htake2]
    | none =>
      rw [h2] at hlw
      have hwlast : w.getLast? = some sep := by
        by_cases hl : w.getLast? = some sep
        · exact hl
        · rw [if_neg hl] at hlw; cases hlw
      have hj : j = 0 := by
        rw [if_pos hwlast] at hlw
        exact (Option.some.inj hlw).symm
      subst hj
      have hwne : w ≠ [] := hne w (by simp)
      have hw : lastIdxOf sep w = some (w.length - 1) := by
        rw [lastIdxOf_word sep w hwne (hdl w (by simp)), if_pos hwlast]
      have hlen1 : 1 ≤ w.length := by
        cases w with
        | nil => exact absurd rfl hwne
        | cons a b => simp
      have htke : (w :: xs).take 1 = [w] := by
        rw [List.take_succ_cons]
        simp
      refine ⟨w.length - 1, ?_, ?_, ?_⟩
      · cases xs with
        | nil => exact hw
        | cons x xs2 =>
          have hj2 : lastIdxOf sep (joinWords (x :: xs2)) = none :=
            lastIdx_join_none sep hsep (x :: xs2) (by simp)
              (fun u hu => hne u (List.mem_cons_of_mem w hu))
              (fun u hu => hdl u (List.mem_cons_of_mem w hu)) h2
          have hsp : lastIdxOf sep (' ' :: joinWords (x :: xs2)) = none := by
            rw [lastIdxOf, hj2]
            have : ¬(' ' = sep) := fun he => hsep he.symm
            simp [this]
          rw [joinWords_cons _ _ (by simp), lastIdxOf_append_none w hsp, hw]
      · rw [htke]
        show w.length - 1 + 1 = (joinWords [w]).length
        have : joinWords [w] = w := rfl
        rw [this]
        omega
      · rw [htke]
        have hjw : joinWords [w] = w := rfl
        rw [hjw]
        have hp1 : w.length - 1 + 1 = w.length := by omega
        rw [hp1]
        cases xs with
        | nil =>
          show (joinWords [w]).take w.length = w
          rw [hjw, List.take_length]
        | cons x xs2 =>
          rw [joinWords_cons _ _ (by simp)]
          have : w.length = w.length + 0 := by omega
          rw [this, List.take_append]
          simp

/-! ## Unfolding equations for the three splitLoop branches -/

theorem splitLoop_succ_dot (maxWords n : Nat) (r : Word) (rs : List Word)
    (p : Nat)
    (hp : lastIdxOf '.' (joinWords ((r :: rs).take maxWords)) = some p) :
    splitLoop maxWords (n + 1) (r :: rs) =
      trimChars ((joinWords ((r :: rs).take maxWords)).take (p + 1)) ::
        splitLoop maxWords n
          ((r :: rs).drop
            (countTokens
              (trimChars ((joinWords ((r :: rs).take maxWords)).take (p + 1))))) := by
  simp only [splitLoop]
  rw [hp]

theorem splitLoop_succ_comma (maxWords n : Nat) (r : Word) (rs : List Word)
    (p : Nat)
    (hdot : lastIdxOf '.' (joinWords ((r :: rs).take maxWords)) = none)
    (hp : lastIdxOf ',' (joinWords ((r :: rs).take maxWords)) = some p) :
    splitLoop maxWords (n + 1) (r :: rs) =
      trimChars ((joinWords ((r :: rs).take maxWords)).take (p + 1)) ::
        splitLoop maxWords n
          ((r :: rs).drop
            (countTokens
              (trimChars ((joinWords ((r :: rs).take maxWords)).take (p + 1))))) := by
  simp only [splitLoop]
  rw [hdot, hp]

theorem splitLoop_succ_forced (maxWords n : Nat) (r : Word) (rs : List Word)
    (hdot : lastIdxOf '.' (joinWords ((r :: rs).take maxWords)) = none)
    (hcom : lastIdxOf ',' (joinWords ((r :: rs).take maxWords)) = none) :
    splitLoop maxWords (n + 1) (r :: rs) =
      trimChars (joinWords ((r :: rs).take maxWords)) ::
        splitLoop maxWords n ((r :: rs).drop maxWords) := by
  simp only [splitLoop]
  rw [hdot, hcom]

/-- Facts about the sentence cut at the last separator of the window.
`rest` is the suffix of the word list at the cursor; under the separator
side conditions the chosen sentence is exactly the joined first `j + 1`
words and consumes exactly those words. -/
theorem sentence_facts (maxWords : Nat) (hm : 1 ≤ maxWords)
    (rest : List Word) (hrest : rest ≠ [])
    (hne : ∀ w ∈ rest, w ≠ [])
    (hnw : ∀ w ∈ rest, ∀ c ∈ w, isWsChar c = false)
    (sep : Char) (hsep : sep ≠ ' ')
    (hdl : ∀ w ∈ rest, sep ∉ w.dropLast)
    (j : Nat) (hlw : lastWordEnding sep (rest.take maxWords) = some j) :
    ∃ p, lastIdxOf sep (joinWords (rest.take maxWords)) = some p ∧
      trimChars ((joinWords (rest.take maxWords)).take (p + 1)) =
        joinWords (rest.take (j + 1)) ∧
      countTokens (joinWords (rest.take (j + 1))) = j + 1 ∧
      wordsOf (joinWords (rest.take (j + 1))) = rest.take (j + 1) ∧
      j + 1 ≤ maxWords ∧ j + 1 ≤ rest.length ∧
      joinWords (rest.take (j + 1)) ≠ [] := by
  have hwne : rest.take maxWords ≠ [] := by
    obtain ⟨r, rs, rfl⟩ : ∃ r rs, rest = r :: rs := by
      cases rest with
      | nil => exact absurd rfl hrest
      | cons r rs => exact ⟨r, rs, rfl⟩
    obtain ⟨m, rfl⟩ : ∃ m, maxWords = m + 1 := ⟨maxWords - 1, by omega⟩
    rw [List.take_succ_cons]
    simp
  have hwsub : ∀ w ∈ rest.take maxWords, w ∈ rest :=
    fun w hw => List.take_subset maxWords rest hw
  have hjlt : j < (rest.take maxWords).length := lastWordEnding_lt hlw
  have hlen : (rest.take maxWords).length = min maxWords rest.length :=
    List.length_take maxWords rest
  have hjm : j + 1 ≤ maxWords := by omega
  have hjr : j + 1 ≤ rest.length := by omega
  obtain ⟨p, hp, hplen, htake⟩ := lastIdx_join_some sep hsep
    (rest.take maxWords) hwne
    (fun w hw => hne w (hwsub w hw))
    (fun w hw => hnw w (hwsub w hw))
    (fun w hw => hdl w (hwsub w hw)) j hlw
  have htwin : (rest.take maxWords).take (j + 1) = rest.take (j + 1) := by
    rw [List.take_take]
    congr 1
    omega
  have htwne : rest.take (j + 1) ≠ [] := by
    obtain ⟨r, rs, rfl⟩ : ∃ r rs, rest = r :: rs := by
      cases rest with
      | nil => exact absurd rfl hrest
      | cons r rs => exact ⟨r, rs, rfl⟩
    rw [List.take_succ_cons]
    simp
  have htsub : ∀ w ∈ rest.take (j + 1), w ∈ rest :=
    fun w hw => List.take_subset (j + 1) rest hw
  have hne2 : ∀ w ∈ rest.take (j + 1), w ≠ [] := fun w hw => hne w (htsub w hw)
  have hnw2 : ∀ w ∈ rest.take (j + 1), ∀ c ∈ w, isWsChar c = false :=
    fun w hw => hnw w (htsub w hw)
  rw [htwin] at htake
  refine ⟨p, hp, ?_, ?_, wordsOf_joinWords _ htwne hne2 hnw2, hjm, hjr,
    joinWords_ne_nil _ htwne hne2⟩
  · rw [htake]
    exact trimChars_joinWords _ htwne hne2 hnw2
  · rw [countTokens_joinWords _ htwne hne2 hnw2, List.length_take]
    omega

/-- Main loop invariant of `splitText` under the separator side condition:
the produced chunks partition the remaining words exactly, each chunk is a
nonempty string of at most `maxWords` words. -/
theorem splitLoop_spec (maxWords : Nat) (hm : 1 ≤ maxWords) :
    ∀ fuel rest, rest.length ≤ fuel →
      (∀ w ∈ rest, w ≠ []) →
      (∀ w ∈ rest, ∀ c ∈ w, isWsChar c = false) →
      (∀ w ∈ rest, '.' ∉ w.dropLast) →
      (∀ w ∈ rest, ',' ∉ w.dropLast) →
      chunkWords (splitLoop maxWords fuel rest) = rest ∧
      ∀ ch ∈ splitLoop maxWords fuel rest,
        ch ≠ [] ∧ (wordsOf ch).length ≤ maxWords := by
  intro fuel
  induction fuel with
  | zero =>
    intro rest hlen _ _ _ _
    have : rest = [] := List.eq_nil_of_length_eq_zero (by omega)
    subst this
    exact ⟨rfl, by intro ch hch; cases hch⟩
  | succ n ih =>
    intro rest hlen h1 h2 h3 h4
    cases rest with
    | nil => exact ⟨rfl, by intro ch hch; cases hch⟩
    | cons r rs =>
      have hrne : (r :: rs) ≠ [] := by simp
      have hdot_sp : ('.' : Char) ≠ ' ' := by decide
      have hcom_sp : (',' : Char) ≠ ' ' := by decide
      -- helper for the two separator branches
      have main :
          ∀ sep : Char, sep ≠ ' ' →
          (∀ w ∈ (r :: rs), sep ∉ w.dropLast) →
          ∀ j, lastWordEnding sep ((r :: rs).take maxWords) = some j →
          ∃ p, lastIdxOf sep (joinWords ((r :: rs).take maxWords)) = some p ∧
            chunkWords
              (trimChars ((joinWords ((r :: rs).take maxWords)).take (p + 1)) ::
                splitLoop maxWords n
                  ((r :: rs).drop
                    (countTokens
                      (trimChars
                        ((joinWords ((r :: rs).take maxWords)).take (p + 1)))))) =
              r :: rs ∧
            ∀ ch ∈
              (trimChars ((joinWords ((r :: rs).take maxWords)).take (p + 1)) ::
                splitLoop maxWords n
                  ((r :: rs).drop
                    (countTokens
                      (trimChars
                        ((joinWords ((r :: rs).take maxWords)).take (p + 1)))))),
              ch ≠ [] ∧ (wordsOf ch).length ≤ maxWords := by
        intro sep hsp hdl j hlw
        obtain ⟨p, hp, hsen, hcount, hwords, hjm, hjr, hsne⟩ :=
          sentence_facts maxWords hm (r :: rs) hrne h1 h2 sep hsp hdl j hlw
        have hdropsub : ∀ w ∈ (r :: rs).drop (j + 1), w ∈ (r :: rs) :=
          fun w hw => List.drop_subset (j + 1) (r :: rs) hw
        have hdlen : ((r :: rs).drop (j + 1)).length ≤ n := by
          rw [List.length_drop]
          simp only [List.length_cons] at hlen ⊢
          omega
        obtain ⟨hjoin, hch⟩ := ih ((r :: rs).drop (j + 1)) hdlen
          (fun w hw => h1 w (hdropsub w hw))
          (fun w hw => h2 w (hdropsub w hw))
          (fun w hw => h3 w (hdropsub w hw))
          (fun w hw => h4 w (hdropsub w hw))
        refine ⟨p, hp, ?_, ?_⟩
        · rw [hsen, hcount, chunkWords, List.map_cons, List.flatten_cons,
            hwords]
          have : chunkWords (splitLoop maxWords n ((r :: rs).drop (j + 1))) =
              (r :: rs).drop (j + 1) := hjoin
          rw [chunkWords] at this
          rw [this, List.take_append_drop]
        · intro ch hch2
          rcases List.mem_cons.1 hch2 with he | he

          · rw [he, hsen]
            refine ⟨hsne, ?_⟩
            rw [hwords, List.length_take]
            simp only [List.length_cons]
            omega
          · rw [hsen, hcount] at he
            exact hch ch he
      cases hdot : lastWordEnding '.' ((r :: rs).take maxWords) with
      | some j =>
        obtain ⟨p, hp, hj, hc⟩ := main '.' hdot_sp h3 j hdot
        rw [splitLoop_succ_dot maxWords n r rs p hp]
        exact ⟨hj, hc⟩
      | none =>
        have hsubw : ∀ w ∈ (r :: rs).take maxWords, w ∈ (r :: rs) :=
          fun w hw => List.take_subset maxWords (r :: rs) hw
        have hwne : (r :: rs).take maxWords ≠ [] := by
          obtain ⟨m, rfl⟩ : ∃ m, maxWords = m + 1 := ⟨maxWords - 1, by omega⟩
          rw [List.take_succ_cons]
          simp
        have hdnone : lastIdxOf '.' (joinWords ((r :: rs).take maxWords)) = none :=
          lastIdx_join_none '.' hdot_sp _ hwne
            (fun w hw => h1 w (hsubw w hw))
            (fun w hw => h3 w (hsubw w hw)) hdot
        cases hcom : lastWordEnding ',' ((r :: rs).take maxWords) with
        | some j =>
          obtain ⟨p, hp, hj, hc⟩ := main ',' hcom_sp h4 j hcom
          rw [splitLoop_succ_comma maxWords n r rs p hdnone hp]
          exact ⟨hj, hc⟩
        | none =>
          have hcnone :
              lastIdxOf ',' (joinWords ((r :: rs).take maxWords)) = none :=
            lastIdx_join_none ',' hcom_sp _ hwne
              (fun w hw => h1 w (hsubw w hw))
              (fun w hw => h4 w (hsubw w hw)) hcom
          rw [splitLoop_succ_forced maxWords n r rs hdnone hcnone]
          have hne2 : ∀ w ∈ (r :: rs).take maxWords, w ≠ [] :=
            fun w hw => h1 w (hsubw w hw)
          have hnw2 : ∀ w ∈ (r :: rs).take maxWords, ∀ c ∈ w,
              isWsChar c = false := fun w hw => h2 w (hsubw w hw)
          have hsen : trimChars (joinWords ((r :: rs).take maxWords)) =
              joinWords ((r :: rs).take maxWords) :=
            trimChars_joinWords _ hwne hne2 hnw2
          have hwrd : wordsOf (joinWords ((r :: rs).take maxWords)) =
              (r :: rs).take maxWords :=
            wordsOf_joinWords _ hwne hne2 hnw2
          have hdropsub : ∀ w ∈ (r :: rs).drop maxWords, w ∈ (r :: rs) :=
            fun w hw => List.drop_subset maxWords (r :: rs) hw
          have hdlen : ((r :: rs).drop maxWords).length ≤ n := by
            rw [List.length_drop]
            simp only [List.length_cons] at hlen ⊢
            omega
          obtain ⟨hjoin, hch⟩ := ih ((r :: rs).drop maxWords) hdlen
            (fun w hw => h1 w (hdropsub w hw))
            (fun w hw => h2 w (hdropsub w hw))
            (fun w hw => h3 w (hdropsub w hw))
            (fun w hw => h4 w (hdropsub w hw))
          constructor
          · rw [hsen, chunkWords, List.map_cons, List.flatten_cons, hwrd]
            rw [chunkWords] at hjoin
            rw [hjoin, List.take_append_drop]
          · intro ch hch2
            rcases List.mem_cons.1 hch2 with he | he
            · rw [he, hsen]
              refine ⟨joinWords_ne_nil _ hwne hne2, ?_⟩
              rw [hwrd, List.length_take]
              omega
            · exact hch ch he

theorem wordsOf_mem_ne_nil {t : List Char} {w : Word} (h : w ∈ wordsOf t) :
    w ≠ [] := by
  rw [wordsOf] at h
  have h2 := (List.mem_filter.1 h).2
  simpa using h2

theorem wordsOf_mem_nonws {t : List Char} {w : Word} (h : w ∈ wordsOf t) :
    ∀ c ∈ w, isWsChar c = false := by
  rw [wordsOf] at h
  have h2 := (List.mem_filter.1 h).1
  refine srGo_tokens_nonws t (some []) ?_ w h2
  intro cur hc d hd
  cases hc
  cases hd

/-- C2 (amended): for every text whose word list is non-empty and every
`maxWords ≥ 1`, provided each `.` and `,` occurs only as the final
character of a word, `splitText` returns a non-empty list of chunks whose
word sequences concatenate to exactly the original word sequence (so the
cursor advances exactly past the consumed words), no chunk is empty, and
no chunk has more than `maxWords` words.  (The original claim fails
without the separator-placement condition: when a separator occurs
mid-word, the remainder of that word is silently dropped, see the
counterexample.) -/
theorem C2_theorem (t : List Char) (maxWords : Nat) (hm : 1 ≤ maxWords)
    (hne : wordsOf t ≠ [])
    (hsep : ∀ w ∈ wordsOf t, '.' ∉ w.dropLast ∧ ',' ∉ w.dropLast) :
    splitText t maxWords ≠ [] ∧
    chunkWords (splitText t maxWords) = wordsOf t ∧
    ∀ ch ∈ splitText t maxWords, ch ≠ [] ∧ (wordsOf ch).length ≤ maxWords := by
  have hw1 : ∀ w ∈ wordsOf t, w ≠ [] := fun w hw => wordsOf_mem_ne_nil hw
  have hw2 : ∀ w ∈ wordsOf t, ∀ c ∈ w, isWsChar c = false :=
    fun w hw => wordsOf_mem_nonws hw
  obtain ⟨hjoin, hch⟩ := splitLoop_spec maxWords hm (wordsOf t).length
    (wordsOf t) le_rfl hw1 hw2
    (fun w hw => (hsep w hw).1) (fun w hw => (hsep w hw).2)
  rw [splitText]
  refine ⟨?_, hjoin, hch⟩
  intro h0
  rw [h0] at hjoin
  exact hne (by rw [← hjoin]; rfl)

/-- C2 counterexample: for `splitText("a.b c", 2)` the produced chunks are
`["a.", "c"]`; the fragment `b` of the word `a.b` after the mid-word
period is dropped, so concatenating the chunks does not reproduce the
original word sequence, not even after erasing every `.` and `,`. -/
theorem C2_counterexample :
    splitText "a.b c".data 2 = ["a.".data, "c".data] ∧
    chunkWords (splitText "a.b c".data 2) ≠ wordsOf "a.b c".data ∧
    (chunkWords (splitText "a.b c".data 2)).map stripSeps ≠
      (wordsOf "a.b c".data).map stripSeps :=
  ⟨by decide, by decide, by decide⟩

/-- Witness for `C2_theorem` at a concrete input. -/
theorem C2_witness :
    (1 ≤ 3 ∧ wordsOf "hello world. nice day".data ≠ [] ∧
      (∀ w ∈ wordsOf "hello world. nice day".data,
        '.' ∉ w.dropLast ∧ ',' ∉ w.dropLast)) ∧
    (splitText "hello world. nice day".data 3 ≠ [] ∧
      chunkWords (splitText "hello world. nice day".data 3) =
        wordsOf "hello world. nice day".data ∧
      ∀ ch ∈ splitText "hello world. nice day".data 3,
        ch ≠ [] ∧ (wordsOf ch).length ≤ 3) :=
  ⟨⟨by decide, by decide, by decide⟩,
    C2_theorem "hello world. nice day".data 3 (by decide) (by decide)
      (by decide)⟩

/-- C9: `generateAndSave` always invokes the synthesis engine with speaker
id 0 and speed 1.0 for every chunk (its public signature carries no
speaker or speed parameter, so caller configuration cannot influence the
calls); only the text shapes the call list. -/
theorem C9_theorem (text : List Char) (c : SynthCall)
    (h : c ∈ generateAndSaveCalls text) : c.sid = 0 ∧ c.speed = 1 := by
  rw [generateAndSaveCalls] at h
  obtain ⟨s, _, rfl⟩ := List.mem_map.1 h
  exact ⟨rfl, rfl⟩

/-- Witness for `C9_theorem` at a concrete input. -/
theorem C9_witness :
    (SynthCall.mk "hi.".data 0 1 ∈ generateAndSaveCalls "hi".data) ∧
    ((SynthCall.mk "hi.".data 0 1).sid = 0 ∧
      (SynthCall.mk "hi.".data 0 1).speed = 1) :=
  ⟨by decide, C9_theorem "hi".data _ (by decide)⟩

/-! ## WAV header round-trip -/

theorem wavPayload_length (samples : List ℚ) :
    (wavPayload samples).length = 2 * samples.length := by
  induction samples with
  | nil => rfl
  | cons q qs ih =>
    rw [wavPayload, List.flatMap_cons, List.length_append]
    rw [wavPayload] at ih
    rw [ih]
    have h2 : (int16le (pcm16Android q)).length = 2 := rfl
    rw [h2, List.length_cons]
    omega

theorem wavHeader_length (r c d : Nat) : (wavHeader r c d).length = 44 := rfl

theorem wavHeader_magics (r c d : Nat) (tail : List Nat) :
    (wavHeader r c d ++ tail).take 4 = [0x52, 0x49, 0x46, 0x46] ∧
    ((wavHeader r c d ++ tail).drop 8).take 4 = [0x57, 0x41, 0x56, 0x45] ∧
    ((wavHeader r c d ++ tail).drop 12).take 4 = [0x66, 0x6D, 0x74, 0x20] ∧
    ((wavHeader r c d ++ tail).drop 36).take 4 = [0x64, 0x61, 0x74, 0x61] :=
  ⟨rfl, rfl, rfl, rfl⟩

theorem read_fmtTag (r c d : Nat) (tail : List Nat) :
    readU16 (wavHeader r c d ++ tail) 20 = 1 := by
  show 1 % 256 + 256 * (1 / 256 % 256) = 1
  norm_num

theorem read_channels (r c d : Nat) (tail : List Nat) (hc : c < 2 ^ 16) :
    readU16 (wavHeader r c d ++ tail) 22 = c := by
  show c % 256 + 256 * (c / 256 % 256) = c
  omega

theorem read_rate (r c d : Nat) (tail : List Nat) (hr : r < 2 ^ 32) :
    readU32 (wavHeader r c d ++ tail) 24 = r := by
  show r % 256 + 256 * (r / 256 % 256) + 65536 * (r / 65536 % 256) +
    16777216 * (r / 16777216 % 256) = r
  omega

theorem read_byteRate (r c d : Nat) (tail : List Nat)
    (hbr : r * c * 2 < 2 ^ 32) :
    readU32 (wavHeader r c d ++ tail) 28 = r * c * 2 := by
  show r * c * 2 % 256 + 256 * (r * c * 2 / 256 % 256) +
    65536 * (r * c * 2 / 65536 % 256) +
    16777216 * (r * c * 2 / 16777216 % 256) = r * c * 2
  omega

theorem read_blockAlign (r c d : Nat) (tail : List Nat)
    (hba : c * 2 < 2 ^ 16) :
    readU16 (wavHeader r c d ++ tail) 32 = c * 2 := by
  show c * 2 % 256 + 256 * (c * 2 / 256 % 256) = c * 2
  omega

theorem read_bits (r c d : Nat) (tail : List Nat) :
    readU16 (wavHeader r c d ++ tail) 34 = 16 := by
  show 16 % 256 + 256 * (16 / 256 % 256) = 16
  norm_num

theorem read_dataSize (r c d : Nat) (tail : List Nat) (hd : d < 2 ^ 32) :
    readU32 (wavHeader r c d ++ tail) 40 = d := by
  show d % 256 + 256 * (d / 256 % 256) + 65536 * (d / 65536 % 256) +
    16777216 * (d / 16777216 % 256) = d
  omega

set_option maxHeartbeats 2000000 in
theorem parseWav_wavHeader (r c d : Nat) (tail : List Nat)
    (hr : r < 2 ^ 32) (hc : c < 2 ^ 16) (hbr : r * c * 2 < 2 ^ 32)
    (hba : c * 2 < 2 ^ 16) (hd : d < 2 ^ 32) :
    parseWavHeader (wavHeader r c d ++ tail) =
      some ⟨1, c, r, r * c * 2, c * 2, 16, d⟩ := by
  obtain ⟨m1, m2, m3, m4⟩ := wavHeader_magics r c d tail
  have hcond : 44 ≤ (wavHeader r c d ++ tail).length ∧
      (wavHeader r c d ++ tail).take 4 = [0x52, 0x49, 0x46, 0x46] ∧
      (((wavHeader r c d ++ tail).drop 8).take 4 = [0x57, 0x41, 0x56, 0x45] ∧
        ((wavHeader r c d ++ tail).drop 12).take 4 = [0x66, 0x6D, 0x74, 0x20] ∧
        ((wavHeader r c d ++ tail).drop 36).take 4 =
          [0x64, 0x61, 0x74, 0x61]) := by
    refine ⟨?_, m1, m2, m3, m4⟩
    rw [List.length_append, wavHeader_length]
    omega
  rw [parseWavHeader, if_pos hcond]
  rw [read_fmtTag r c d tail, read_channels r c d tail hc,
    read_rate r c d tail hr, read_byteRate r c d tail hbr,
    read_blockAlign r c d tail hba, read_bits r c d tail,
    read_dataSize r c d tail hd]

/-- C6: serializing any sample list at 22050 Hz mono and parsing the
header back yields PCM tag 1, 1 channel, rate 22050, byte rate
22050·1·2 = 44100, block align 2, bit depth 16 and data size equal to
twice the sample count; the stream is the 44-byte canonical header
followed immediately by the PCM payload.  (The size hypothesis keeps the
32-bit header fields of the source from overflowing.) -/
theorem C6_theorem (samples : List ℚ)
    (h : 2 * samples.length + 36 < 2 ^ 31) :
    parseWavHeader (wavBytes samples 22050 1) =
      some ⟨1, 1, 22050, 44100, 2, 16, 2 * samples.length⟩ ∧
    (wavBytes samples 22050 1).length = 44 + 2 * samples.length ∧
    (wavBytes samples 22050 1).drop 44 = wavPayload samples := by
  refine ⟨?_, ?_, ?_⟩
  · rw [wavBytes]
    have := parseWav_wavHeader 22050 1 (2 * samples.length)
      (wavPayload samples) (by norm_num) (by norm_num) (by norm_num)
      (by norm_num) (by omega)
    simpa using this
  · rw [wavBytes, List.length_append, wavPayload_length]
    have hlen : (wavHeader 22050 1 (2 * samples.length)).length = 44 := rfl
    rw [hlen]
  · rw [wavBytes]
    exact List.drop_left' rfl

/-- Witness for `C6_theorem` at a concrete sample list. -/
theorem C6_witness :
    (2 * ([(1 : ℚ) / 2] : List ℚ).length + 36 < 2 ^ 31) ∧
    (parseWavHeader (wavBytes [(1 : ℚ) / 2] 22050 1) =
        some ⟨1, 1, 22050, 44100, 2, 16, 2 * ([(1 : ℚ) / 2] : List ℚ).length⟩ ∧
      (wavBytes [(1 : ℚ) / 2] 22050 1).length =
        44 + 2 * ([(1 : ℚ) / 2] : List ℚ).length ∧
      (wavBytes [(1 : ℚ) / 2] 22050 1).drop 44 = wavPayload [(1 : ℚ) / 2]) :=
  ⟨by norm_num, C6_theorem [(1 : ℚ) / 2] (by norm_num)⟩

/-! ## PCM16 conversion -/

theorem clampQ_le (x : ℚ) : clampQ x ≤ 1 := by
  rw [clampQ]
  refine max_le (by norm_num) (min_le_left 1 x)

theorem clampQ_ge (x : ℚ) : -1 ≤ clampQ x := le_max_left (-1) (min 1 x)

/-- C7 (amended): both serializers first clamp the sample to `[-1, 1]` and
scale by 32767; the iOS implementation then rounds to nearest (absolute
error at most 1/2) while the Android implementation truncates toward zero
(absolute error below 1, never increasing the magnitude); both results
always lie within `[-32767, 32767]`.  (The original claim that the
conversion rounds rather than truncates fails on the Android code, see the
counterexample.) -/
theorem C7_theorem (x : ℚ) :
    (-32767 ≤ pcm16Android x ∧ pcm16Android x ≤ 32767) ∧
    (-32767 ≤ pcm16IOS x ∧ pcm16IOS x ≤ 32767) ∧
    |(pcm16IOS x : ℚ) - clampQ x * 32767| ≤ 1 / 2 ∧
    |(pcm16Android x : ℚ) - clampQ x * 32767| < 1 ∧
    |(pcm16Android x : ℚ)| ≤ |clampQ x * 32767| := by
  have hc1 : -1 ≤ clampQ x := clampQ_ge x
  have hc2 : clampQ x ≤ 1 := clampQ_le x
  set y : ℚ := clampQ x * 32767 with hy
  have hy1 : -32767 ≤ y := by rw [hy]; nlinarith
  have hy2 : y ≤ 32767 := by rw [hy]; nlinarith
  by_cases h0 : 0 ≤ y
  · have hA : pcm16Android x = ⌊y⌋ := by
      rw [pcm16Android, truncQ, ← hy, if_pos h0]
    have hI : pcm16IOS x = ⌊y + 1 / 2⌋ := by
      rw [pcm16IOS, roundAwayQ, ← hy, if_pos h0]
    rw [hA, hI]
    have hfl : (⌊y⌋ : ℚ) ≤ y := Int.floor_le y
    have hfg : y - 1 < (⌊y⌋ : ℚ) := Int.sub_one_lt_floor y
    have hfl2 : (⌊y + 1 / 2⌋ : ℚ) ≤ y + 1 / 2 := Int.floor_le (y + 1 / 2)
    have hfg2 : y + 1 / 2 - 1 < (⌊y + 1 / 2⌋ : ℚ) := Int.sub_one_lt_floor _
    have hA1 : (0 : ℤ) ≤ ⌊y⌋ := Int.le_floor.2 (by exact_mod_cast h0)
    have hA2 : ⌊y⌋ ≤ 32767 := by
      have : ⌊y⌋ ≤ ⌊(32767 : ℚ)⌋ := Int.floor_le_floor hy2
      simpa using this
    have hI1 : (0 : ℤ) ≤ ⌊y + 1 / 2⌋ := Int.le_floor.2 (by push_cast; linarith)
    have hI2 : ⌊y + 1 / 2⌋ ≤ 32767 := by
      have h1 : y + 1 / 2 ≤ (65535 : ℚ) / 2 := by linarith
      have h2 : ⌊y + 1 / 2⌋ ≤ ⌊(65535 : ℚ) / 2⌋ := Int.floor_le_floor h1
      have h3 : ⌊(65535 : ℚ) / 2⌋ = 32767 := by norm_num
      omega
    refine ⟨⟨by omega, hA2⟩, ⟨by omega, hI2⟩, ?_, ?_, ?_⟩
    · rw [abs_le]
      constructor <;> push_cast <;> linarith
    · rw [abs_sub_lt_iff]
      constructor <;> push_cast <;> linarith
    · rw [abs_of_nonneg (by exact_mod_cast hA1 : (0 : ℚ) ≤ (⌊y⌋ : ℚ)),
        abs_of_nonneg h0]
      exact hfl
  · push_neg at h0
    have hA : pcm16Android x = ⌈y⌉ := by
      rw [pcm16Android, truncQ, ← hy, if_neg (by linarith)]
    have hI : pcm16IOS x = ⌈y - 1 / 2⌉ := by
      rw [pcm16IOS, roundAwayQ, ← hy, if_neg (by linarith)]
    rw [hA, hI]
    have hcl : y ≤ (⌈y⌉ : ℚ) := Int.le_ceil y
    have hcg : (⌈y⌉ : ℚ) < y + 1 := Int.ceil_lt_add_one y
    have hcl2 : y - 1 / 2 ≤ (⌈y - 1 / 2⌉ : ℚ) := Int.le_ceil _
    have hcg2 : (⌈y - 1 / 2⌉ : ℚ) < y - 1 / 2 + 1 := Int.ceil_lt_add_one _
    have hA1 : ⌈y⌉ ≤ 0 := Int.ceil_le.2 (by exact_mod_cast le_of_lt h0)
    have hA2 : -32767 ≤ ⌈y⌉ := by
      have : (-32767 : ℚ) ≤ (⌈y⌉ : ℚ) := by linarith
      exact_mod_cast this
    have hI1 : ⌈y - 1 / 2⌉ ≤ 0 := by
      refine Int.ceil_le.2 ?_
      push_cast
      linarith
    have hI2 : -32767 ≤ ⌈y - 1 / 2⌉ := by
      have h1 : -((65535 : ℚ) / 2) ≤ y - 1 / 2 := by linarith
      have h2 : ⌈-((65535 : ℚ) / 2)⌉ ≤ ⌈y - 1 / 2⌉ := Int.ceil_le_ceil h1
      have h3 : ⌈-((65535 : ℚ) / 2)⌉ = -32767 := by
        rw [Int.ceil_neg]
        have : ⌊(65535 : ℚ) / 2⌋ = 32767 := by norm_num
        omega
      omega
    refine ⟨⟨hA2, by omega⟩, ⟨hI2, by omega⟩, ?_, ?_, ?_⟩
    · rw [abs_le]
      constructor <;> push_cast <;> linarith
    · rw [abs_sub_lt_iff]
      constructor <;> push_cast <;> linarith
    · rw [abs_of_nonpos (by exact_mod_cast hA1 : (⌈y⌉ : ℚ) ≤ 0),
        abs_of_nonpos (le_of_lt h0)]
      linarith

/-- C7 counterexample: at the exactly representable sample 0.5 the
Android serializer produces 16383 (truncation toward zero of 16383.5)
whereas rounding produces 16384 (which is what the iOS serializer
yields), so the Android conversion does not round. -/
theorem C7_counterexample :
    pcm16Android (1 / 2) = 16383 ∧ pcm16IOS (1 / 2) = 16384 ∧
    pcm16Android (1 / 2) ≠ roundAwayQ (clampQ (1 / 2) * 32767) := by
  have h1 : pcm16Android (1 / 2) = 16383 := by
    norm_num [pcm16Android, truncQ, clampQ]
  have h2 : pcm16IOS (1 / 2) = 16384 := by
    norm_num [pcm16IOS, roundAwayQ, clampQ]
  have h3 : roundAwayQ (clampQ (1 / 2 : ℚ) * 32767) = 16384 := h2
  refine ⟨h1, h2, ?_⟩
  rw [h1, h3]
  decide

/-! ## Streaming playback engine: completion signalling -/

/-- C1 (failing trace): the completion condition is checked without any
synchronization covering the window between the draining thread's
`audioQueue.take()` and its `pendingWrites += 1`.  In the interleaving
below, `endEnqueue()` runs in that window for the final (sole) chunk:
the queue is already empty and `pendingWrites` is still 0, so
`maybeSendCompletion` emits the finished sentinel before the chunk is
written to the device — the trace is `[finished, write]`, violating the
claimed ordering (last sample write precedes the finished signal). -/
theorem C1_theorem :
    (runSched (initPlayer 22050 1)
      [.beginPB 1, .enqueue [1, 2, 3] 22050, .thTake, .endEnq, .mainRun,
       .thAccum, .thIncPW, .thWrite, .thDecPW, .thCheck]).events =
      [.finished, .write [1, 2, 3]] := by decide

/-- C3 counterexample: a second consecutive `stopPlayer()` call posts a
further `-1` completion signal (the `!isRunning` branch deliberately
re-emits it, per its source comment), so it is not a no-op with respect
to telemetry: two stops in a row produce two finished signals. -/
theorem C3_counterexample :
    (runSched (initPlayer 22050 1)
      [.beginPB 1, .stop, .mainRun, .stop, .mainRun]).events =
      [.finished, .finished] := by decide

/-- C3 (amended): every `stopPlayer()` call posts exactly one completion
signal, and a call made while running halts the draining thread, releases
the device and clears the analysis buffers; but a repeated `stop()` is not
a no-op — each further call posts one more completion signal (so callers
awaiting completion can always settle). -/
theorem C3_theorem (s : PlayerState) :
    (step s .stop).mainQueue = s.mainQueue ++ [.emitFinished] ∧
    (s.running = true →
      (step s .stop).running = false ∧ (step s .stop).deviceOpen = false ∧
      (step s .stop).accBuffer = [] ∧ (step s .stop).volumes = [] ∧
      (step s .stop).enqueueClosed = true ∧
      (step s .stop).didSignalFinish = true ∧
      (step s .stop).sentCompletion = true) := by
  by_cases h : s.running <;> simp [step, h]

/-- Witness for `C3_theorem` on a started player. -/
theorem C3_witness :
    (runSched (initPlayer 22050 1) [.beginPB 1]).running = true ∧
    ((step (runSched (initPlayer 22050 1) [.beginPB 1]) .stop).running = false ∧
      (step (runSched (initPlayer 22050 1) [.beginPB 1]) .stop).deviceOpen =
        false ∧
      (step (runSched (initPlayer 22050 1) [.beginPB 1]) .stop).accBuffer = [] ∧
      (step (runSched (initPlayer 22050 1) [.beginPB 1]) .stop).volumes = [] ∧
      (step (runSched (initPlayer 22050 1) [.beginPB 1]) .stop).enqueueClosed =
        true ∧
      (step (runSched (initPlayer 22050 1) [.beginPB 1]) .stop).didSignalFinish =
        true ∧
      (step (runSched (initPlayer 22050 1) [.beginPB 1]) .stop).sentCompletion =
        true) :=
  ⟨by decide,
    (C3_theorem (runSched (initPlayer 22050 1) [.beginPB 1])).2 (by decide)⟩

/-- C10: a chunk whose sample rate matches re-opens the current request's
stream (the enqueue-closed flag and both completion flags become false and
the chunk joins the FIFO), so enqueueing after `endEnqueue()` re-arms the
engine — the concrete trace below emits a second finished sentinel for the
same request without a new `beginPlayback`; a mismatching chunk is
rejected (`IllegalArgumentException` before any state write) and leaves
the whole state unchanged. -/
theorem C10_theorem :
    (∀ (s : PlayerState) (samples : List ℚ) (sr : Nat), sr = s.sampleRate →
      enqueueAudioData s samples sr =
        .ok { s with sentCompletion := false, didSignalFinish := false,
                     enqueueClosed := false, queue := s.queue ++ [samples] }) ∧
    (∀ (s : PlayerState) (samples : List ℚ) (sr : Nat), sr ≠ s.sampleRate →
      enqueueAudioData s samples sr = .error "Sample rate mismatch" ∧
      step s (.enqueue samples sr) = s) ∧
    (runSched (initPlayer 22050 1)
      [.beginPB 1, .enqueue [1, 2] 22050, .endEnq, .thTake, .thAccum,
       .thIncPW, .thWrite, .thDecPW, .thCheck, .mainRun,
       .enqueue [3, 4] 22050, .endEnq, .thTake, .thAccum, .thIncPW,
       .thWrite, .thDecPW, .thCheck, .mainRun]).events =
      [.write [1, 2], .finished, .write [3, 4], .finished] := by
  refine ⟨?_, ?_, by decide⟩
  · intro s samples sr h
    simp [enqueueAudioData, h]
  · intro s samples sr h
    refine ⟨?_, ?_⟩
    · rw [enqueueAudioData, if_pos h]
    · simp [step, enqueueAudioData, h]

/-- Witness for `C10_theorem` at concrete inputs. -/
theorem C10_witness :
    (22050 = (initPlayer 22050 1).sampleRate ∧
      enqueueAudioData (initPlayer 22050 1) [1] 22050 =
        .ok { initPlayer 22050 1 with
                sentCompletion := false, didSignalFinish := false,
                enqueueClosed := false,
                queue := (initPlayer 22050 1).queue ++ [[1]] }) ∧
    (44100 ≠ (initPlayer 22050 1).sampleRate ∧
      enqueueAudioData (initPlayer 22050 1) [1] 44100 =
        .error "Sample rate mismatch" ∧
      step (initPlayer 22050 1) (.enqueue [1] 44100) = initPlayer 22050 1) :=
  ⟨⟨rfl, C10_theorem.1 (initPlayer 22050 1) [1] 22050 rfl⟩,
    ⟨by decide, C10_theorem.2.1 (initPlayer 22050 1) [1] 44100 (by decide)⟩⟩

/-! ## Session coordinators -/

/-- C4 counterexample: on the iOS coordinator two back-to-back plays leave
both continuations pending simultaneously (`pendingPromises` holds the
superseded continuation unsettled — nothing is resolved "interrupted"),
falsifying the claim that two pending completions never coexist. -/
theorem C4_counterexample :
    (generateAndPlayI "b".data 20
        (generateAndPlayI "a".data 10 ⟨0, 0, [], true, []⟩)).pending =
      [(1, 10), (2, 20)] ∧
    (generateAndPlayI "b".data 20
        (generateAndPlayI "a".data 10 ⟨0, 0, [], true, []⟩)).settled = [] :=
  ⟨by decide, by decide⟩

/-- C4 (amended): the Android coordinator keeps a single pending slot
(`pendingPromise`, so at most one pending completion can exist there) and
a new valid `play` resolves any existing pending continuation as
"Interrupted" while installing the new one; the iOS coordinator instead
appends the new continuation to `pendingPromises` keyed by the new session
id, leaving a superseded continuation pending and unsettled, so two
pending completions can coexist there. -/
theorem C4_theorem :
    (∀ (s : AndroidState) (text : List Char) (p q : Nat),
      trimChars text ≠ [] → s.ttsReady = true → s.pending = some q →
        (generateAndPlayA text p s).pending = some p ∧
        (q, Settle.interrupted) ∈ (generateAndPlayA text p s).settled) ∧
    (∀ (s : IosState) (text : List Char) (p : Nat),
      trimChars text ≠ [] → s.ttsReady = true →
        (generateAndPlayI text p s).pending = s.pending ++ [(s.seq + 1, p)] ∧
        (generateAndPlayI text p s).settled = s.settled) := by
  constructor
  · intro s text p q h1 h2 h3
    simp [generateAndPlayA, h1, h2, h3]
  · intro s text p h1 h2
    simp [generateAndPlayI, h1, h2]

/-- Witness for `C4_theorem` at concrete inputs. -/
theorem C4_witness :
    ((generateAndPlayA "a".data 9 ⟨5, 5, some 77, true, [], []⟩).pending =
        some 9 ∧
      (77, Settle.interrupted) ∈
        (generateAndPlayA "a".data 9 ⟨5, 5, some 77, true, [], []⟩).settled) ∧
    ((generateAndPlayI "a".data 9 ⟨0, 0, [], true, []⟩).pending = [(1, 9)] ∧
      (generateAndPlayI "a".data 9 ⟨0, 0, [], true, []⟩).settled = []) :=
  ⟨C4_theorem.1 ⟨5, 5, some 77, true, [], []⟩ "a".data 9 77 (by decide) rfl
      rfl,
    by
      have h := C4_theorem.2 ⟨0, 0, [], true, []⟩ "a".data 9 (by decide) rfl
      simpa using h⟩

/-- C8: a play request whose text is empty after trimming settles
synchronously with `EMPTY_TEXT` and changes nothing else — on both
platforms no session id is assigned, no pending continuation is installed
and the player is never touched (no `beginPlayback`). -/
theorem C8_theorem :
    (∀ (s : AndroidState) (text : List Char) (p : Nat), trimChars text = [] →
      generateAndPlayA text p s =
        { s with settled := s.settled ++ [(p, .rejEmpty)] }) ∧
    (∀ (s : IosState) (text : List Char) (p : Nat), trimChars text = [] →
      generateAndPlayI text p s =
        { s with settled := s.settled ++ [(p, .rejEmpty)] }) := by
  constructor
  · intro s text p h
    simp [generateAndPlayA, h]
  · intro s text p h
    simp [generateAndPlayI, h]

/-- Witness for `C8_theorem` on whitespace-only text. -/
theorem C8_witness :
    trimChars "  ".data = [] ∧
    generateAndPlayA "  ".data 3 ⟨0, 0, none, true, [], []⟩ =
      ⟨0, 0, none, true, [(3, Settle.rejEmpty)], []⟩ ∧
    generateAndPlayI "  ".data 3 ⟨0, 0, [], true, []⟩ =
      ⟨0, 0, [], true, [(3, Settle.rejEmpty)]⟩ :=
  ⟨by decide,
    by
      have h := C8_theorem.1 ⟨0, 0, none, true, [], []⟩ "  ".data 3 (by decide)
      simpa using h,
    by
      have h := C8_theorem.2 ⟨0, 0, [], true, []⟩ "  ".data 3 (by decide)
      simpa using h⟩

/-! ## Synthesis dispatch loop -/

/-- C5 counterexample: a synthesis call returning unusable output (`null`)
does not abort the loop and surfaces no error — the next chunk is still
synthesized and enqueued and `endEnqueue` is reached (`generateAudio`
merely logs and returns on a null result). -/
theorem C5_counterexample :
    runSynthLoop 22050 [.nullResult, .ok [1] 22050] = ([[1]], true, false) :=
  by decide

/-- C5 (amended): if a synthesis call throws (or its result's sample rate
mismatches the player, making `enqueueAudioData` throw), the loop aborts
all remaining chunks, never reaches `endEnqueue`, and surfaces
`GENERATION_ERROR`, while chunks already handed to the sink are kept; a
`null` (unusable) synthesis result however is silently skipped and the
remaining chunks continue. -/
theorem C5_theorem (rate : Nat) (pre post : List SynthOutcome)
    (h : ∀ o ∈ pre, abortsLoop rate o = false) :
    runSynthLoop rate (pre ++ .throwsExc :: post) =
      (okChunks pre, false, true) := by
  induction pre with
  | nil => rfl
  | cons o rest ih =>
    have ho := h o (by simp)
    have hrest : ∀ o2 ∈ rest, abortsLoop rate o2 = false :=
      fun o2 h2 => h o2 (List.mem_cons_of_mem o h2)
    cases o with
    | throwsExc => simp [abortsLoop] at ho
    | nullResult =>
      rw [List.cons_append]
      show runSynthLoop rate (rest ++ .throwsExc :: post) =
        (okChunks (.nullResult :: rest), false, true)
      rw [ih hrest]
      rfl
    | ok samples sr =>
      have hsr : sr = rate := by
        simpa [abortsLoop] using ho
      rw [List.cons_append]
      show (if sr = rate then
          let out := runSynthLoop rate (rest ++ .throwsExc :: post)
          (samples :: out.1, out.2.1, out.2.2)
        else ([], false, true)) = (okChunks (.ok samples sr :: rest), false, true)
      rw [if_pos hsr, ih hrest]
      rfl

/-- Witness for `C5_theorem` at a concrete outcome list. -/
theorem C5_witness :
    (∀ o ∈ ([.ok [2] 22050, .nullResult] : List SynthOutcome),
      abortsLoop 22050 o = false) ∧
    runSynthLoop 22050
        ([.ok [2] 22050, .nullResult] ++ .throwsExc :: [.ok [5] 22050]) =
      (okChunks [.ok [2] 22050, .nullResult], false, true) :=
  ⟨by decide, C5_theorem 22050 [.ok [2] 22050, .nullResult] [.ok [5] 22050]
    (by decide)⟩

end SherpaTts
